import Mathlib

/-!
Shallow embedding of `PyUFunc_CheckOverride`
(src/numpy/core/src/private/ufunc_override.h, lines 19-209), the
`__numpy_ufunc__` override-dispatch protocol: candidate discovery over the
positional arguments, argument normalization (the `"out"` entry), the
priority-selection loop (subclasses before superclasses, otherwise left to
right), and invocation of the chosen override until one returns something
other than `NotImplemented`.

Host-runtime primitives are embedded as follows: every Python object that can
appear as an operand is an `Operand` carrying the predicates the dispatcher
consults; the type-relationship oracle `PyObject_IsInstance` is an injectable
function `inst : Nat → Nat → Bool` over runtime-type ids (`inst a b` holds
when an object of runtime type `a` is an instance of the class whose type id
is `b`); `PyObject_Type` pointer comparison is equality of type ids.
Allocation failures (`PyDict_New`, `Py_BuildValue`, `PyUString_FromString`)
are not modelled; the attribute lookup of line 165 is assumed to succeed
whenever the `HasAttr` check of line 66 did.
-/

namespace UfuncOverride

/-- Maximum operand count of a ufunc call: numpy's `NPY_MAXARGS` (32), the
size of the `with_override` arrays (lines 39-42) and the bound checked at
line 54. -/
def NPY_MAXARGS : Nat := 32

/-- What one call of an operand's `__numpy_ufunc__` attribute returns, as
`PyObject_Call` (line 178) reports it: NULL (an exception was raised), the
sentinel `Py_NotImplemented`, or any other object (an opaque id). -/
inductive OvRet where
  | raises
  | notImplemented
  | value (v : Nat)
deriving DecidableEq

/-- One operand of the call with the host-runtime facts the dispatcher
consults: `PyArray_CheckExact`, `PyArray_IsAnyScalar` (line 63),
`PyObject_HasAttrString(obj, "__numpy_ufunc__")` (line 66), the id of its
runtime type (`PyObject_Type`), and what its override returns when called. -/
structure Operand where
  isArrayExact : Bool
  isAnyScalar : Bool
  hasUfuncAttr : Bool
  ty : Nat
  ret : OvRet
deriving DecidableEq

instance : Inhabited Operand := ⟨⟨false, false, false, 0, .raises⟩⟩

/-- A value stored in a keyword dictionary: an operand taken from `args`
(line 101), a tuple slice of operands (line 105), or an opaque value the
caller put into `kwds`. -/
inductive PyVal where
  | obj (o : Operand)
  | slice (l : List Operand)
  | ext (n : Nat)
deriving DecidableEq

/-- A Python dict as an association list with unique keys; lookup is the
first matching key. -/
abbrev Dict := List (String × PyVal)

/-- `PyDict_SetItemString`: replace the value at an existing key, else append
the new entry. -/
def dictSet : Dict → String → PyVal → Dict
  | [], k, v => [(k, v)]
  | (k', v') :: rest, k, v =>
    if k' == k then (k, v) :: rest else (k', v') :: dictSet rest k v

/-- Dictionary lookup (`PyDict_GetItemString`). -/
def dictGet : Dict → String → Option PyVal
  | [], _ => none
  | (k', v') :: rest, k => if k' == k then some v' else dictGet rest k

/-- The caller's keyword mapping: its entries and whether it is an exact dict
(`PyDict_CheckExact`, line 88); a non-exact mapping is not copied, lines
91-93 start from an empty dict instead. -/
structure Kwds where
  exact : Bool
  entries : Dict
deriving DecidableEq

/-- The `args` parameter: a tuple of operands, or some non-tuple object
(rejected by the `PyTuple_Check` test of line 47). -/
inductive Args where
  | tup (elems : List Operand)
  | notTuple

/-- The observable outcome of `PyUFunc_CheckOverride`:
`noOverride` is return 0 with `*result == NULL` (line 74-77); `result v` is
return 0 with `*result` the override's value; `invalidUsage` the ValueError
paths of lines 47-59; `allDeclined` the TypeError of lines 157-162;
`propagated` return 1 with the override's own exception pending (lines
183-186); `nullUB` means the inner loop of lines 139-147 evaluated
`PyObject_Type` / `PyObject_IsInstance` on a NULL entry of `with_override`
(a slot cleared at line 151 in an earlier round), which is undefined
C-API usage. -/
inductive Outcome where
  | noOverride
  | result (v : Nat)
  | invalidUsage
  | allDeclined
  | propagated
  | nullUB
deriving DecidableEq

/-- One invocation of an override (lines 165-178): the receiver is
`override_obj`; the call's positional arguments are
`(ufunc, method_name, override_pos, normal_args)` built at line 171, its
keyword arguments `normal_kwds`. -/
structure CallRecord where
  uf : Nat
  methodName : String
  pos : Nat
  receiver : Operand
  posArgs : List Operand
  kwArgs : Dict
deriving DecidableEq

/-- One cell of the parallel arrays `with_override` / `with_override_pos`:
the operand (NULL once tried, line 151) and its original index in `args`. -/
abbrev Slot := Option Operand × Nat

/-- Lines 63-66: an element is skipped when it is the exact native array type
or a native scalar; otherwise it is a candidate when it has the
`__numpy_ufunc__` attribute. -/
def isCandidate (o : Operand) : Bool :=
  !(o.isArrayExact || o.isAnyScalar) && o.hasUfuncAttr

/-- The discovery loop of lines 61-71: candidates in left-to-right order,
each paired with its original index in `args`. -/
def candidates (args : List Operand) : List (Operand × Nat) :=
  (args.enum.filter fun p => isCandidate p.2).map fun p => (p.2, p.1)

/-- The initial `with_override` / `with_override_pos` arrays: every candidate
in a live slot. -/
def initSlots (args : List Operand) : List Slot :=
  (candidates args).map fun c => (some c.1, c.2)

/-- Lines 88-96: `normal_kwds` starts as a copy of `kwds` when that is
non-NULL and an exact dict, else as a fresh empty dict. -/
def baseKwds (kwds : Option Kwds) : Dict :=
  match kwds with
  | some k => if k.exact then k.entries else []
  | none => []

/-- Lines 98-109: when `nargs > nin` the extra positional arguments become
the `"out"` entry of `normal_kwds` - the single argument itself when there
is exactly one (line 101), else the slice `args[nin:nargs]` (line 105). -/
def buildNormalKwds (kwds : Option Kwds) (args : List Operand) (nin : Nat) : Dict :=
  if args.length > nin then
    if args.length - nin = 1 then
      dictSet (baseKwds kwds) "out" (.obj ((args.get? (args.length - 1)).getD default))
    else
      dictSet (baseKwds kwds) "out"
        (.slice ((args.drop nin).take (args.length - nin)))
  else baseKwds kwds

/-- Result of the inner loop of lines 139-147 scanning the slots to the right
of a candidate: `clear` when the loop ran to completion (no subtype found),
`disq` when it hit a strict-subclass-type instance and broke, `ub` when it
read a NULL slot - the loop has no NULL check, so `PyObject_Type(NULL)` and
`PyObject_IsInstance(NULL, ...)` are evaluated, undefined C-API usage. -/
inductive Inner where
  | clear
  | disq
  | ub
deriving DecidableEq

variable (inst : Nat → Nat → Bool)

/-- The inner loop of lines 139-147: walk the slots after the current
candidate in order; break (disqualify) at the first `other_obj` whose type id
differs from the candidate's and which is an instance of the candidate's
type. A NULL slot reached before any such break is the undefined case. -/
def innerCheck (obj : Operand) : List Slot → Inner
  | [] => .clear
  | (none, _) :: _ => .ub
  | (some other, _) :: rest =>
    if (other.ty != obj.ty) && inst other.ty obj.ty then .disq
    else innerCheck obj rest

/-- Result of one pass of the selection loop (lines 128-154): the chosen
candidate, its position, and the slots with the chosen one cleared
(line 151); or no live candidate survived; or the undefined NULL case. -/
inductive Sel where
  | chosen (obj : Operand) (pos : Nat) (rest : List Slot)
  | nothingLeft
  | ub
deriving DecidableEq

/-- The outer selection loop of lines 128-154: skip NULL slots (line 130);
for a live candidate run the inner check; if it is clear the candidate is
chosen and its slot cleared, on disqualification move right. -/
def selectLoop : List Slot → Sel
  | [] => .nothingLeft
  | (none, p) :: rest =>
    match selectLoop rest with
    | .chosen o q rest2 => .chosen o q ((none, p) :: rest2)
    | .nothingLeft => .nothingLeft
    | .ub => .ub
  | (some obj, p) :: rest =>
    match innerCheck inst obj rest with
    | .clear => .chosen obj p ((none, p) :: rest)
    | .ub => .ub
    | .disq =>
      match selectLoop rest with
      | .chosen o q rest2 => .chosen o q ((some obj, p) :: rest2)
      | .nothingLeft => .nothingLeft
      | .ub => .ub

/-- Number of live (not yet tried) slots. -/
def countSome (l : List Slot) : Nat := (l.filter fun s => s.1.isSome).length

/-- The `while (1)` loop of lines 119-196, fuelled: select a candidate; on
NULL-exhaustion raise the TypeError of lines 157-162; call the chosen
override and interpret its result (lines 178-195): an exception propagates,
`Py_NotImplemented` continues with the next candidate, anything else is the
final result. Each round clears exactly one live slot, so the loop runs at
most `countSome` rounds; the fuel-0 branch is reached only with no live slot
left, where the selection loop finds nothing, and returns the same TypeError
outcome. -/
def callLoopF (uf : Nat) (mname : String) (na : List Operand) (nk : Dict) :
    Nat → List Slot → Outcome × List CallRecord
  | 0, _ => (.allDeclined, [])
  | fuel + 1, cands =>
    match selectLoop inst cands with
    | .nothingLeft => (.allDeclined, [])
    | .ub => (.nullUB, [])
    | .chosen obj pos rest =>
      match obj.ret with
      | .raises => (.propagated, [⟨uf, mname, pos, obj, na, nk⟩])
      | .value v => (.result v, [⟨uf, mname, pos, obj, na, nk⟩])
      | .notImplemented =>
        let out := callLoopF uf mname na nk fuel rest
        (out.1, ⟨uf, mname, pos, obj, na, nk⟩ :: out.2)

/-- The `while (1)` loop started on a slot list, with fuel equal to the
number of live slots. -/
def callLoop (uf : Nat) (mname : String) (na : List Operand) (nk : Dict)
    (cands : List Slot) : Outcome × List CallRecord :=
  callLoopF inst uf mname na nk (countSome cands) cands

/-- `PyUFunc_CheckOverride` (lines 19-209), the spec's
`resolve(ufuncIdentity, methodName, args, kwds, nin)`: validate `args`
(lines 47-59), discover candidates and bail out with no override when there
are none (lines 61-77), normalize the arguments (lines 82-114), then run the
selection-and-call loop. The outcome is paired with the trace of override
invocations, in order. -/
def PyUFunc_CheckOverride (uf : Nat) (method : String) (args : Args)
    (kwds : Option Kwds) (nin : Nat) : Outcome × List CallRecord :=
  match args with
  | .notTuple => (.invalidUsage, [])
  | .tup elems =>
    if elems.length > NPY_MAXARGS then (.invalidUsage, [])
    else if (candidates elems).length = 0 then (.noOverride, [])
    else
      callLoop inst uf method (elems.take nin) (buildNormalKwds kwds elems nin)
        (initSlots elems)

/-! Structural lemmas about the inner check and the selection loop. -/

lemma innerCheck_clear_of (obj : Operand) (l : List Slot)
    (h : innerCheck inst obj l = .clear) :
    ∀ e ∈ l, ∃ c q, e = (some c, q) ∧
      ((c.ty != obj.ty) && inst c.ty obj.ty) = false := by
  induction l with
  | nil => intro e he; exact absurd he (List.not_mem_nil e)
  | cons head rest ih =>
    obtain ⟨os, hp⟩ := head
    cases os with
    | none => exact absurd h (by simp [innerCheck])
    | some other =>
      simp only [innerCheck] at h
      by_cases hc : ((other.ty != obj.ty) && inst other.ty obj.ty) = true
      · rw [if_pos hc] at h; exact absurd h (by decide)
      · rw [if_neg hc] at h
        intro e he
        rcases List.mem_cons.mp he with rfl | hmem
        · exact ⟨other, hp, rfl, by simpa using hc⟩
        · exact ih h e hmem

lemma innerCheck_disq_ex (obj : Operand) (l : List Slot)
    (h : innerCheck inst obj l = .disq) :
    ∃ t₁ c q t₂, l = t₁ ++ (some c, q) :: t₂ ∧ c.ty ≠ obj.ty ∧
      inst c.ty obj.ty = true := by
  induction l with
  | nil => exact absurd h (by simp [innerCheck])
  | cons head rest ih =>
    obtain ⟨os, hp⟩ := head
    cases os with
    | none => exact absurd h (by simp [innerCheck])
    | some other =>
      simp only [innerCheck] at h
      by_cases hc : ((other.ty != obj.ty) && inst other.ty obj.ty) = true
      · refine ⟨[], other, hp, rest, rfl, ?_, ?_⟩
        · simpa using (Bool.and_elim_left hc)
        · exact Bool.and_elim_right hc
      · rw [if_neg hc] at h
        obtain ⟨t₁, c, q, t₂, heq, hne, hi⟩ := ih h
        exact ⟨(some other, hp) :: t₁, c, q, t₂, by rw [heq]; rfl, hne, hi⟩

/-- A chosen candidate decomposes the slot list: the chosen slot is live, the
slots to its right pass the inner check clear, the updated list only clears
the chosen slot, and every live slot to its left was disqualified by its own
inner check over everything to its right. -/
lemma selectLoop_chosen_decomp (l : List Slot) (o : Operand) (p : Nat)
    (l' : List Slot) (h : selectLoop inst l = .chosen o p l') :
    ∃ l₁ l₂, l = l₁ ++ (some o, p) :: l₂ ∧ l' = l₁ ++ (none, p) :: l₂ ∧
      innerCheck inst o l₂ = .clear ∧
      ∀ c q t₁ t₂, l₁ = t₁ ++ (some c, q) :: t₂ →
        innerCheck inst c (t₂ ++ (some o, p) :: l₂) = .disq := by
  induction l generalizing o p l' with
  | nil => exact absurd h (by simp [selectLoop])
  | cons head rest ih =>
    obtain ⟨os, hp⟩ := head
    cases os with
    | none =>
      simp only [selectLoop] at h
      cases hsel : selectLoop inst rest with
      | chosen o2 q2 rest2 =>
        rw [hsel] at h
        cases h
        obtain ⟨l₁, l₂, he, he', hcl, hpre⟩ := ih _ _ _ hsel
        refine ⟨(none, hp) :: l₁, l₂, by rw [he]; rfl, by rw [he']; rfl, hcl, ?_⟩
        intro c q t₁ t₂ ht
        cases t₁ with
        | nil =>
          obtain ⟨h1, -⟩ := List.cons_eq_cons.mp ht
          exact absurd h1 (by simp)
        | cons a t₁' =>
          obtain ⟨-, h2⟩ := List.cons_eq_cons.mp ht
          exact hpre c q t₁' t₂ h2
      | nothingLeft => rw [hsel] at h; simp at h
      | ub => rw [hsel] at h; simp at h
    | some obj =>
      simp only [selectLoop] at h
      cases hin : innerCheck inst obj rest with
      | clear =>
        rw [hin] at h
        cases h
        exact ⟨[], rest, rfl, rfl, hin, by intro c q t₁ t₂ ht; simp at ht⟩
      | ub => rw [hin] at h; simp at h
      | disq =>
        rw [hin] at h
        cases hsel : selectLoop inst rest with
        | chosen o2 q2 rest2 =>
          rw [hsel] at h
          cases h
          obtain ⟨l₁, l₂, he, he', hcl, hpre⟩ := ih _ _ _ hsel
          refine ⟨(some obj, hp) :: l₁, l₂, by rw [he]; rfl, by rw [he']; rfl,
            hcl, ?_⟩
          intro c q t₁ t₂ ht
          cases t₁ with
          | nil =>
            obtain ⟨h1, h2⟩ := List.cons_eq_cons.mp ht
            obtain ⟨ho, -⟩ := Prod.mk.inj h1
            obtain rfl : obj = c := Option.some.inj ho
            rw [← h2, ← he]
            exact hin
          | cons a t₁' =>
            obtain ⟨-, h2⟩ := List.cons_eq_cons.mp ht
            exact hpre c q t₁' t₂ h2
        | nothingLeft => rw [hsel] at h; simp at h
        | ub => rw [hsel] at h; simp at h

lemma countSome_append (a b : List Slot) :
    countSome (a ++ b) = countSome a + countSome b := by
  simp [countSome, List.filter_append]

lemma countSome_cons_some (o : Operand) (p : Nat) (t : List Slot) :
    countSome ((some o, p) :: t) = countSome t + 1 := by
  simp [countSome, Nat.add_comm]

lemma countSome_cons_none (p : Nat) (t : List Slot) :
    countSome ((none, p) :: t) = countSome t := by
  simp [countSome]

lemma selectLoop_countSome (l : List Slot) (o : Operand) (p : Nat)
    (l' : List Slot) (h : selectLoop inst l = .chosen o p l') :
    countSome l' < countSome l := by
  obtain ⟨l₁, l₂, he, he', -, -⟩ := selectLoop_chosen_decomp inst l o p l' h
  rw [he, he', countSome_append, countSome_append, countSome_cons_some,
    countSome_cons_none]
  omega

/-- The chosen slot was live in the list. -/
lemma selectLoop_chosen_mem (l : List Slot) (o : Operand) (p : Nat)
    (l' : List Slot) (h : selectLoop inst l = .chosen o p l') :
    (some o, p) ∈ l := by
  obtain ⟨l₁, l₂, he, -, -, -⟩ := selectLoop_chosen_decomp inst l o p l' h
  rw [he]; exact List.mem_append_right l₁ (List.mem_cons_self _ _)

/-- Live slots of the updated list were live slots of the input. -/
lemma selectLoop_rest_some_sub (l : List Slot) (o : Operand) (p : Nat)
    (l' : List Slot) (h : selectLoop inst l = .chosen o p l')
    (c : Operand) (q : Nat) (hm : (some c, q) ∈ l') : (some c, q) ∈ l := by
  obtain ⟨l₁, l₂, he, he', -, -⟩ := selectLoop_chosen_decomp inst l o p l' h
  rw [he'] at hm
  rw [he]
  rcases List.mem_append.mp hm with h1 | h2
  · exact List.mem_append_left _ h1
  · rcases List.mem_cons.mp h2 with heq | h3
    · exact absurd heq (by simp)
    · exact List.mem_append_right _ (List.mem_cons_of_mem _ h3)

/-- A live slot other than the chosen one stays live in the updated list. -/
lemma selectLoop_keep_some (l : List Slot) (o : Operand) (p : Nat)
    (l' : List Slot) (h : selectLoop inst l = .chosen o p l')
    (c : Operand) (q : Nat) (hq : q ≠ p) (hm : (some c, q) ∈ l) :
    (some c, q) ∈ l' := by
  obtain ⟨l₁, l₂, he, he', -, -⟩ := selectLoop_chosen_decomp inst l o p l' h
  rw [he] at hm
  rw [he']
  rcases List.mem_append.mp hm with h1 | h2
  · exact List.mem_append_left _ h1
  · rcases List.mem_cons.mp h2 with heq | h3
    · exact absurd (congrArg Prod.snd heq) hq
    · exact List.mem_append_right _ (List.mem_cons_of_mem _ h3)

/-- Updating the slot list does not change the stored positions. -/
lemma selectLoop_pos_map (l : List Slot) (o : Operand) (p : Nat)
    (l' : List Slot) (h : selectLoop inst l = .chosen o p l') :
    l'.map (·.2) = l.map (·.2) := by
  obtain ⟨l₁, l₂, he, he', -, -⟩ := selectLoop_chosen_decomp inst l o p l' h
  rw [he, he']
  simp

/-- Under a transitive and antisymmetric instance oracle (as a host type
system supplies), no pass of the selection loop chooses a candidate while a
live slot anywhere in the list still holds a strict-subclass-type instance
of the chosen candidate's type. -/
lemma chosen_no_pending
    (htrans : ∀ a b c, inst a b = true → inst b c = true → inst a c = true)
    (hanti : ∀ a b, inst a b = true → inst b a = true → a = b) :
    ∀ n (l l' t₁ t₂ : List Slot) (o S : Operand) (p iS : Nat),
      selectLoop inst l = .chosen o p l' →
      l = t₁ ++ (some S, iS) :: t₂ → t₂.length ≤ n →
      S.ty ≠ o.ty → inst S.ty o.ty = true → False := by
  intro n
  induction n using Nat.strong_induction_on with
  | _ n ihn =>
    intro l l' t₁ t₂ o S p iS hsel hdec hlen hneq hinst
    obtain ⟨l₁, l₂, he, -, hclear, hpre⟩ :=
      selectLoop_chosen_decomp inst l o p l' hsel
    rw [hdec] at he
    rcases List.append_eq_append_iff.mp he with ⟨a', ha1, ha2⟩ | ⟨c', hc1, hc2⟩
    · cases a' with
      | nil =>
        simp only [List.nil_append] at ha2
        obtain ⟨h1, -⟩ := List.cons_eq_cons.mp ha2
        obtain ⟨hSo, -⟩ := Prod.mk.inj h1
        exact hneq (congrArg Operand.ty (Option.some.inj hSo))
      | cons x a'' =>
        obtain ⟨hx, ht2⟩ := List.cons_eq_cons.mp ha2
        simp only [List.append_eq] at ht2
        have hl1 : l₁ = t₁ ++ (some S, iS) :: a'' := by rw [ha1, ← hx]
        have hdisq := hpre S iS t₁ a'' hl1
        obtain ⟨u₁, X, q, u₂, hu, hXne, hXinst⟩ :=
          innerCheck_disq_ex inst S _ hdisq
        have hXo : inst X.ty o.ty = true := htrans _ _ _ hXinst hinst
        have hXneq : X.ty ≠ o.ty := by
          intro hEq
          rw [hEq] at hXinst
          exact hneq (hanti _ _ hinst hXinst)
        have hlX : l = (t₁ ++ (some S, iS) :: u₁) ++ (some X, q) :: u₂ := by
          rw [hdec, ht2, hu]
          simp
        have hlt : u₂.length < n := by
          have h2 : t₂.length = u₁.length + (u₂.length + 1) := by
            rw [ht2, hu]; simp
          omega
        exact ihn u₂.length hlt l l' (t₁ ++ (some S, iS) :: u₁) u₂ o X p q
          hsel hlX (le_refl _) hXneq hXo
    · cases c' with
      | nil =>
        simp only [List.nil_append] at hc2
        obtain ⟨h1, -⟩ := List.cons_eq_cons.mp hc2
        obtain ⟨hSo, -⟩ := Prod.mk.inj h1
        exact hneq (congrArg Operand.ty (Option.some.inj hSo)).symm
      | cons x c'' =>
        obtain ⟨hx, hl2⟩ := List.cons_eq_cons.mp hc2
        have hmem : (some S, iS) ∈ l₂ := by
          rw [hl2]
          exact List.mem_append_right _ (List.mem_cons_self _ _)
        obtain ⟨c, cq, hcq, hfalse⟩ := innerCheck_clear_of inst o l₂ hclear _ hmem
        obtain ⟨hc, -⟩ := Prod.mk.inj hcq
        obtain rfl : S = c := Option.some.inj hc
        have hbne : (S.ty != o.ty) = true := by simpa [bne_iff_ne] using hneq
        rw [hbne, hinst] at hfalse
        simp at hfalse

/-! Step equations for the fuelled call loop. -/

lemma callLoopF_succ_nothing (uf : Nat) (m : String) (na : List Operand)
    (nk : Dict) (n : Nat) (cands : List Slot)
    (hsel : selectLoop inst cands = .nothingLeft) :
    callLoopF inst uf m na nk (n + 1) cands = (.allDeclined, []) := by
  simp only [callLoopF, hsel]

lemma callLoopF_succ_ub (uf : Nat) (m : String) (na : List Operand)
    (nk : Dict) (n : Nat) (cands : List Slot)
    (hsel : selectLoop inst cands = .ub) :
    callLoopF inst uf m na nk (n + 1) cands = (.nullUB, []) := by
  simp only [callLoopF, hsel]

lemma callLoopF_succ_raises (uf : Nat) (m : String) (na : List Operand)
    (nk : Dict) (n : Nat) (cands : List Slot) (obj : Operand) (pos : Nat)
    (rest : List Slot) (hsel : selectLoop inst cands = .chosen obj pos rest)
    (hret : obj.ret = .raises) :
    callLoopF inst uf m na nk (n + 1) cands =
      (.propagated, [⟨uf, m, pos, obj, na, nk⟩]) := by
  simp only [callLoopF, hsel, hret]

lemma callLoopF_succ_value (uf : Nat) (m : String) (na : List Operand)
    (nk : Dict) (n : Nat) (cands : List Slot) (obj : Operand) (pos : Nat)
    (rest : List Slot) (v : Nat)
    (hsel : selectLoop inst cands = .chosen obj pos rest)
    (hret : obj.ret = .value v) :
    callLoopF inst uf m na nk (n + 1) cands =
      (.result v, [⟨uf, m, pos, obj, na, nk⟩]) := by
  simp only [callLoopF, hsel, hret]

lemma callLoopF_succ_decline (uf : Nat) (m : String) (na : List Operand)
    (nk : Dict) (n : Nat) (cands : List Slot) (obj : Operand) (pos : Nat)
    (rest : List Slot) (hsel : selectLoop inst cands = .chosen obj pos rest)
    (hret : obj.ret = .notImplemented) :
    callLoopF inst uf m na nk (n + 1) cands =
      ((callLoopF inst uf m na nk n rest).1,
        ⟨uf, m, pos, obj, na, nk⟩ :: (callLoopF inst uf m na nk n rest).2) := by
  simp only [callLoopF, hsel, hret]

/-! Invariants of the call loop. -/

/-- Every record of the call trace carries the fixed call data (the ufunc,
the method name, the normalized positional slice and keyword dict), and its
receiver/position pair was a live slot of the list the loop started on. -/
lemma callLoopF_records (uf : Nat) (m : String) (na : List Operand) (nk : Dict) :
    ∀ fuel cands, ∀ r ∈ (callLoopF inst uf m na nk fuel cands).2,
      r.uf = uf ∧ r.methodName = m ∧ r.posArgs = na ∧ r.kwArgs = nk ∧
        (some r.receiver, r.pos) ∈ cands := by
  intro fuel
  induction fuel with
  | zero =>
    intro cands r hr
    simp [callLoopF] at hr
  | succ n ih =>
    intro cands r hr
    cases hsel : selectLoop inst cands with
    | nothingLeft =>
      rw [callLoopF_succ_nothing inst uf m na nk n cands hsel] at hr
      simp at hr
    | ub =>
      rw [callLoopF_succ_ub inst uf m na nk n cands hsel] at hr
      simp at hr
    | chosen obj pos rest =>
      have hmem := selectLoop_chosen_mem inst cands obj pos rest hsel
      cases hret : obj.ret with
      | raises =>
        rw [callLoopF_succ_raises inst uf m na nk n cands obj pos rest hsel hret] at hr
        simp only [List.mem_singleton] at hr
        subst hr
        exact ⟨rfl, rfl, rfl, rfl, hmem⟩
      | value v =>
        rw [callLoopF_succ_value inst uf m na nk n cands obj pos rest v hsel hret] at hr
        simp only [List.mem_singleton] at hr
        subst hr
        exact ⟨rfl, rfl, rfl, rfl, hmem⟩
      | notImplemented =>
        rw [callLoopF_succ_decline inst uf m na nk n cands obj pos rest hsel hret] at hr
        simp only [List.mem_cons] at hr
        rcases hr with rfl | hr
        · exact ⟨rfl, rfl, rfl, rfl, hmem⟩
        · obtain ⟨h1, h2, h3, h4, h5⟩ := ih rest r hr
          exact ⟨h1, h2, h3, h4,
            selectLoop_rest_some_sub inst cands obj pos rest hsel _ _ h5⟩

/-- When the slot positions are distinct, the trace never repeats a
position: each chosen slot is cleared before its override is called. -/
lemma callLoopF_pos_nodup (uf : Nat) (m : String) (na : List Operand) (nk : Dict) :
    ∀ fuel cands, (cands.map (·.2)).Nodup →
      ((callLoopF inst uf m na nk fuel cands).2.map (·.pos)).Nodup := by
  intro fuel
  induction fuel with
  | zero => intro cands _; simp [callLoopF]
  | succ n ih =>
    intro cands hnd
    cases hsel : selectLoop inst cands with
    | nothingLeft =>
      rw [callLoopF_succ_nothing inst uf m na nk n cands hsel]
      simp
    | ub =>
      rw [callLoopF_succ_ub inst uf m na nk n cands hsel]
      simp
    | chosen obj pos rest =>
      have hnd' : (rest.map (·.2)).Nodup := by
        rw [selectLoop_pos_map inst cands obj pos rest hsel]
        exact hnd
      cases hret : obj.ret with
      | raises =>
        rw [callLoopF_succ_raises inst uf m na nk n cands obj pos rest hsel hret]
        simp
      | value v =>
        rw [callLoopF_succ_value inst uf m na nk n cands obj pos rest v hsel hret]
        simp
      | notImplemented =>
        rw [callLoopF_succ_decline inst uf m na nk n cands obj pos rest hsel hret]
        simp only [List.map_cons]
        refine List.nodup_cons.mpr ⟨?_, ih rest hnd'⟩
        intro hmem
        obtain ⟨r, hr, hrpos⟩ := List.mem_map.mp hmem
        obtain ⟨-, -, -, -, h5⟩ := callLoopF_records inst uf m na nk n rest r hr
        rw [hrpos] at h5
        obtain ⟨l₁, l₂, -, he', -, -⟩ :=
          selectLoop_chosen_decomp inst cands obj pos rest hsel
        have hnone : ((none : Option Operand), pos) ∈ rest := by
          rw [he']
          exact List.mem_append_right _ (List.mem_cons_self _ _)
        have := List.inj_on_of_nodup_map hnd' h5 hnone rfl
        simp at this

/-- The loop never produces the no-override or invalid-usage outcomes: those
arise before it starts. -/
lemma callLoopF_outcome_ne (uf : Nat) (m : String) (na : List Operand) (nk : Dict) :
    ∀ fuel cands, (callLoopF inst uf m na nk fuel cands).1 ≠ .invalidUsage ∧
      (callLoopF inst uf m na nk fuel cands).1 ≠ .noOverride := by
  intro fuel
  induction fuel with
  | zero => intro cands; simp [callLoopF]
  | succ n ih =>
    intro cands
    cases hsel : selectLoop inst cands with
    | nothingLeft =>
      rw [callLoopF_succ_nothing inst uf m na nk n cands hsel]
      simp
    | ub =>
      rw [callLoopF_succ_ub inst uf m na nk n cands hsel]
      simp
    | chosen obj pos rest =>
      cases hret : obj.ret with
      | raises =>
        rw [callLoopF_succ_raises inst uf m na nk n cands obj pos rest hsel hret]
        simp
      | value v =>
        rw [callLoopF_succ_value inst uf m na nk n cands obj pos rest v hsel hret]
        simp
      | notImplemented =>
        rw [callLoopF_succ_decline inst uf m na nk n cands obj pos rest hsel hret]
        exact ih rest

/-- A raising override ends the trace on the spot: nothing is called after
it and the loop's outcome is the propagated failure. -/
lemma callLoopF_raises_last (uf : Nat) (m : String) (na : List Operand) (nk : Dict) :
    ∀ fuel cands pre r post,
      (callLoopF inst uf m na nk fuel cands).2 = pre ++ r :: post →
      r.receiver.ret = .raises →
      post = [] ∧ (callLoopF inst uf m na nk fuel cands).1 = .propagated := by
  intro fuel
  induction fuel with
  | zero =>
    intro cands pre r post h _
    simp [callLoopF] at h
  | succ n ih =>
    intro cands pre r post h hret
    cases hsel : selectLoop inst cands with
    | nothingLeft =>
      rw [callLoopF_succ_nothing inst uf m na nk n cands hsel] at h
      simp at h
    | ub =>
      rw [callLoopF_succ_ub inst uf m na nk n cands hsel] at h
      simp at h
    | chosen obj pos rest =>
      cases ho : obj.ret with
      | raises =>
        rw [callLoopF_succ_raises inst uf m na nk n cands obj pos rest hsel ho] at h ⊢
        cases pre with
        | nil =>
          obtain ⟨-, h2⟩ := List.cons_eq_cons.mp h
          exact ⟨h2.symm, rfl⟩
        | cons a pre' =>
          obtain ⟨-, h2⟩ := List.cons_eq_cons.mp h
          simp at h2
      | value v =>
        rw [callLoopF_succ_value inst uf m na nk n cands obj pos rest v hsel ho] at h
        cases pre with
        | nil =>
          obtain ⟨h1, -⟩ := List.cons_eq_cons.mp h
          rw [← h1] at hret
          simp [ho] at hret
        | cons a pre' =>
          obtain ⟨-, h2⟩ := List.cons_eq_cons.mp h
          simp at h2
      | notImplemented =>
        rw [callLoopF_succ_decline inst uf m na nk n cands obj pos rest hsel ho] at h ⊢
        cases pre with
        | nil =>
          obtain ⟨h1, -⟩ := List.cons_eq_cons.mp h
          rw [← h1] at hret
          simp [ho] at hret
        | cons a pre' =>
          obtain ⟨-, h2⟩ := List.cons_eq_cons.mp h
          obtain ⟨hp, hout⟩ := ih rest pre' r post h2 hret
          exact ⟨hp, hout⟩

/-- Under a transitive and antisymmetric instance oracle: as long as a
strict-subclass-type instance S of P is still live, the loop never calls the
slot holding P; hence whenever P's position shows up in the trace, S's
position shows up strictly before it. -/
lemma callLoopF_order (uf : Nat) (m : String) (na : List Operand) (nk : Dict)
    (htrans : ∀ a b c, inst a b = true → inst b c = true → inst a c = true)
    (hanti : ∀ a b, inst a b = true → inst b a = true → a = b)
    (S P : Operand) (iS iP : Nat)
    (hneq : S.ty ≠ P.ty) (hinst : inst S.ty P.ty = true) :
    ∀ fuel cands,
      (some S, iS) ∈ cands →
      (∀ o : Operand, (some o, iP) ∈ cands → o = P) →
      iP ∈ (callLoopF inst uf m na nk fuel cands).2.map (·.pos) →
      ∃ u v, (callLoopF inst uf m na nk fuel cands).2.map (·.pos) = u ++ iS :: v ∧
        iP ∈ v := by
  intro fuel
  induction fuel with
  | zero =>
    intro cands _ _ hcall
    simp [callLoopF] at hcall
  | succ n ih =>
    intro cands hS hP hcall
    have hiSiP : iS ≠ iP := by
      intro hEq
      have hSP : S = P := hP S (hEq ▸ hS)
      exact hneq (congrArg Operand.ty hSP)
    cases hsel : selectLoop inst cands with
    | nothingLeft =>
      rw [callLoopF_succ_nothing inst uf m na nk n cands hsel] at hcall
      simp at hcall
    | ub =>
      rw [callLoopF_succ_ub inst uf m na nk n cands hsel] at hcall
      simp at hcall
    | chosen obj pos rest =>
      have hposiP : pos ≠ iP := by
        intro hEq
        have hmem := selectLoop_chosen_mem inst cands obj pos rest hsel
        have hobjP : obj = P := hP obj (hEq ▸ hmem)
        subst hobjP
        obtain ⟨t₁, t₂, hdec⟩ := List.append_of_mem hS
        exact chosen_no_pending inst htrans hanti t₂.length cands rest t₁ t₂
          obj S pos iS hsel hdec (le_refl _) hneq hinst
      by_cases hpos : pos = iS
      · cases ho : obj.ret with
        | raises =>
          rw [callLoopF_succ_raises inst uf m na nk n cands obj pos rest hsel ho]
            at hcall
          simp at hcall
          exact absurd hcall.symm hposiP
        | value v =>
          rw [callLoopF_succ_value inst uf m na nk n cands obj pos rest v hsel ho]
            at hcall
          simp at hcall
          exact absurd hcall.symm hposiP
        | notImplemented =>
          rw [callLoopF_succ_decline inst uf m na nk n cands obj pos rest hsel ho]
            at hcall ⊢
          simp only [List.map_cons] at hcall ⊢
          refine ⟨[], (callLoopF inst uf m na nk n rest).2.map (·.pos),
            by rw [hpos]; rfl, ?_⟩
          rcases List.mem_cons.mp hcall with hEq | hmem
          · exact absurd hEq.symm hposiP
          · exact hmem
      · have hS' : (some S, iS) ∈ rest :=
          selectLoop_keep_some inst cands obj pos rest hsel S iS
            (fun hEq => hpos hEq.symm) hS
        have hP' : ∀ o : Operand, (some o, iP) ∈ rest → o = P := fun o hm =>
          hP o (selectLoop_rest_some_sub inst cands obj pos rest hsel o iP hm)
        cases ho : obj.ret with
        | raises =>
          rw [callLoopF_succ_raises inst uf m na nk n cands obj pos rest hsel ho]
            at hcall
          simp at hcall
          exact absurd hcall.symm hposiP
        | value v =>
          rw [callLoopF_succ_value inst uf m na nk n cands obj pos rest v hsel ho]
            at hcall
          simp at hcall
          exact absurd hcall.symm hposiP
        | notImplemented =>
          rw [callLoopF_succ_decline inst uf m na nk n cands obj pos rest hsel ho]
            at hcall ⊢
          simp only [List.map_cons] at hcall ⊢
          have hmem : iP ∈ (callLoopF inst uf m na nk n rest).2.map (·.pos) := by
            rcases List.mem_cons.mp hcall with hEq | hmem
            · exact absurd hEq.symm hposiP
            · exact hmem
          obtain ⟨u, v, hEq, hv⟩ := ih rest hS' hP' hmem
          exact ⟨pos :: u, v, by rw [List.cons_append, hEq], hv⟩

/-- Candidate positions are indices of the enumeration, hence pairwise
distinct. -/
lemma candidates_pos_nodup (args : List Operand) :
    ((candidates args).map (·.2)).Nodup := by
  have h1 : (candidates args).map (·.2) =
      (args.enum.filter fun p => isCandidate p.2).map Prod.fst := by
    simp [candidates]
  rw [h1]
  have h2 : List.Sublist ((args.enum.filter fun p => isCandidate p.2).map Prod.fst)
      (args.enum.map Prod.fst) :=
    List.Sublist.map _ (List.filter_sublist _)
  rw [List.enum_map_fst] at h2
  exact h2.nodup (List.nodup_range _)

lemma mem_initSlots (args : List Operand) (c : Operand) (p : Nat) :
    (some c, p) ∈ initSlots args ↔ (c, p) ∈ candidates args := by
  constructor
  · intro h
    obtain ⟨a, ha, heq⟩ := List.mem_map.mp h
    obtain ⟨h1, h2⟩ := Prod.mk.inj heq
    have h3 : a.1 = c := Option.some.inj h1
    rw [← h3, ← h2]
    simpa using ha
  · intro h
    exact List.mem_map.mpr ⟨(c, p), h, rfl⟩

lemma initSlots_pos_map (args : List Operand) :
    (initSlots args).map (·.2) = (candidates args).map (·.2) := by
  simp [initSlots]

/-- Unfolding of the dispatcher on a valid tuple with at least one
candidate. -/
lemma resolve_tup_eq (uf : Nat) (method : String) (elems : List Operand)
    (kwds : Option Kwds) (nin : Nat) (hlen : elems.length ≤ NPY_MAXARGS)
    (hcand : candidates elems ≠ []) :
    PyUFunc_CheckOverride inst uf method (.tup elems) kwds nin =
      callLoopF inst uf method (elems.take nin) (buildNormalKwds kwds elems nin)
        (countSome (initSlots elems)) (initSlots elems) := by
  simp only [PyUFunc_CheckOverride, callLoop]
  rw [if_neg (by omega), if_neg (by simpa using hcand)]

lemma resolve_too_long (uf : Nat) (method : String) (elems : List Operand)
    (kwds : Option Kwds) (nin : Nat) (h : NPY_MAXARGS < elems.length) :
    PyUFunc_CheckOverride inst uf method (.tup elems) kwds nin =
      (.invalidUsage, []) := by
  simp only [PyUFunc_CheckOverride]
  rw [if_pos h]

/-! The claims. -/

/-- C1: for every dispatch in which two candidates appear such that operand
S is a runtime subclass instance relative to operand P's type (their types
differ and S is an instance of P's type), S's override is attempted before
P's, regardless of the positions of S and P in args. Stated over the call
trace: whenever P's position occurs in it, S's position occurs strictly
earlier. The instance oracle is assumed transitive and antisymmetric, as the
host type system's subclass relation is. -/
theorem C1_subclass_precedence (inst : Nat → Nat → Bool)
    (htrans : ∀ a b c, inst a b = true → inst b c = true → inst a c = true)
    (hanti : ∀ a b, inst a b = true → inst b a = true → a = b)
    (uf : Nat) (method : String) (elems : List Operand) (kwds : Option Kwds)
    (nin : Nat) (S P : Operand) (iS iP : Nat)
    (hS : (S, iS) ∈ candidates elems) (hP : (P, iP) ∈ candidates elems)
    (hty : S.ty ≠ P.ty) (hinst : inst S.ty P.ty = true)
    (hcall : iP ∈ (PyUFunc_CheckOverride inst uf method (.tup elems) kwds
      nin).2.map (·.pos)) :
    ∃ u v, (PyUFunc_CheckOverride inst uf method (.tup elems) kwds nin).2.map
      (·.pos) = u ++ iS :: v ∧ iP ∈ v := by
  by_cases hlen : elems.length ≤ NPY_MAXARGS
  · have hcand : candidates elems ≠ [] := List.ne_nil_of_mem hS
    rw [resolve_tup_eq inst uf method elems kwds nin hlen hcand] at hcall ⊢
    have hS' : (some S, iS) ∈ initSlots elems := (mem_initSlots elems S iS).mpr hS
    have hP' : ∀ o : Operand, (some o, iP) ∈ initSlots elems → o = P := by
      intro o hm
      have hoc : (o, iP) ∈ candidates elems := (mem_initSlots elems o iP).mp hm
      have hinj := List.inj_on_of_nodup_map (candidates_pos_nodup elems)
      have heq := hinj hoc hP rfl
      exact (Prod.mk.inj heq).1
    exact callLoopF_order inst uf method (elems.take nin)
      (buildNormalKwds kwds elems nin) htrans hanti S P iS iP hty hinst
      (countSome (initSlots elems)) (initSlots elems) hS' hP' hcall
  · rw [resolve_too_long inst uf method elems kwds nin (by omega)] at hcall
    simp at hcall

/-- Witness for C1: two candidates S (type 0, position 0, declines) and
P (type 1, position 1, accepts) under the oracle "type a is an instance of
type b iff a ≤ b", so S is a strict subclass instance of P's type; the trace
is position 0 then position 1. -/
theorem C1_subclass_precedence_witness :
    ∃ u v,
      (PyUFunc_CheckOverride (fun a b => decide (a ≤ b)) 7 "add"
        (.tup [⟨false, false, true, 0, .notImplemented⟩,
          ⟨false, false, true, 1, .value 3⟩]) none 2).2.map (·.pos)
        = u ++ 0 :: v ∧ 1 ∈ v :=
  C1_subclass_precedence (fun a b => decide (a ≤ b))
    (fun a b c h1 h2 => decide_eq_true
      (Nat.le_trans (of_decide_eq_true h1) (of_decide_eq_true h2)))
    (fun a b h1 h2 =>
      Nat.le_antisymm (of_decide_eq_true h1) (of_decide_eq_true h2))
    7 "add" [⟨false, false, true, 0, .notImplemented⟩,
      ⟨false, false, true, 1, .value 3⟩] none 2
    ⟨false, false, true, 0, .notImplemented⟩ ⟨false, false, true, 1, .value 3⟩
    0 1 (by decide) (by decide) (by decide) (by decide) (by decide)

lemma dictGet_dictSet_self (d : Dict) (k : String) (v : PyVal) :
    dictGet (dictSet d k v) k = some v := by
  induction d with
  | nil => simp [dictSet, dictGet]
  | cons e rest ih =>
    obtain ⟨k', v'⟩ := e
    by_cases hk : (k' == k) = true
    · simp [dictSet, dictGet, hk]
    · have hkf : (k' == k) = false := by simpa using hk
      simp [dictSet, dictGet, hkf, ih]

lemma dictGet_dictSet_ne (d : Dict) (k k2 : String) (v : PyVal) (h : k ≠ k2) :
    dictGet (dictSet d k2 v) k = dictGet d k := by
  have hne : (k2 == k) = false := by
    simp only [beq_eq_false_iff_ne, ne_eq]
    exact fun hEq => h hEq.symm
  induction d with
  | nil => simp [dictSet, dictGet, hne]
  | cons e rest ih =>
    obtain ⟨k', v'⟩ := e
    by_cases hk : (k' == k2) = true
    · have hkeq : k' = k2 := by simpa using hk
      subst hkeq
      simp [dictSet, dictGet, hne]
    · have hkf : (k' == k2) = false := by simpa using hk
      simp only [dictSet, hkf, Bool.false_eq_true, if_false]
      by_cases hkk : (k' == k) = true
      · simp [dictGet, hkk]
      · have hkkf : (k' == k) = false := by simpa using hkk
        simp [dictGet, hkkf, ih]

lemma resolve_no_candidates (uf : Nat) (method : String) (elems : List Operand)
    (kwds : Option Kwds) (nin : Nat) (hlen : elems.length ≤ NPY_MAXARGS)
    (hcand : candidates elems = []) :
    PyUFunc_CheckOverride inst uf method (.tup elems) kwds nin =
      (.noOverride, []) := by
  simp only [PyUFunc_CheckOverride]
  rw [if_neg (by omega), if_pos (by simp [hcand])]

lemma innerCheck_not_ub_of_all_some (obj : Operand) (l : List Slot)
    (h : ∀ e ∈ l, e.1.isSome = true) : innerCheck inst obj l ≠ .ub := by
  induction l with
  | nil => simp [innerCheck]
  | cons e rest ih =>
    obtain ⟨os, hp⟩ := e
    cases os with
    | none =>
      have := h (none, hp) (List.mem_cons_self _ _)
      simp at this
    | some other =>
      simp only [innerCheck]
      by_cases hc : ((other.ty != obj.ty) && inst other.ty obj.ty) = true
      · rw [if_pos hc]; simp
      · rw [if_neg hc]
        exact ih fun e he => h e (List.mem_cons_of_mem _ he)

/-- On a nonempty list of live slots (the first round), the selection loop
always chooses a candidate: the rightmost live slot has a clear inner check. -/
lemma selectLoop_all_some (l : List Slot) (hne : l ≠ [])
    (h : ∀ e ∈ l, e.1.isSome = true) :
    ∃ o p rest, selectLoop inst l = .chosen o p rest := by
  induction l with
  | nil => exact absurd rfl hne
  | cons e restl ih =>
    obtain ⟨os, hp⟩ := e
    cases os with
    | none =>
      have := h (none, hp) (List.mem_cons_self _ _)
      simp at this
    | some obj =>
      have hrest : ∀ e ∈ restl, e.1.isSome = true := fun e he =>
        h e (List.mem_cons_of_mem _ he)
      simp only [selectLoop]
      cases hin : innerCheck inst obj restl with
      | clear => exact ⟨obj, hp, (none, hp) :: restl, rfl⟩
      | ub => exact absurd hin (innerCheck_not_ub_of_all_some inst obj restl hrest)
      | disq =>
        have hrne : restl ≠ [] := by
          intro hEq
          rw [hEq] at hin
          simp [innerCheck] at hin
        obtain ⟨o, p, rest, hsel⟩ := ih hrne hrest
        rw [hsel]
        exact ⟨o, p, (some obj, hp) :: rest, rfl⟩

lemma initSlots_all_some (args : List Operand) :
    ∀ e ∈ initSlots args, e.1.isSome = true := by
  intro e he
  obtain ⟨a, -, heq⟩ := List.mem_map.mp he
  rw [← heq]
  rfl

lemma countSome_pos (l : List Slot) (hne : l ≠ [])
    (h : ∀ e ∈ l, e.1.isSome = true) : 0 < countSome l := by
  obtain ⟨e, he⟩ := List.exists_mem_of_ne_nil l hne
  have hmem : e ∈ l.filter fun s => s.1.isSome :=
    List.mem_filter.mpr ⟨he, h e he⟩
  have := List.ne_nil_of_mem hmem
  simpa [countSome, List.length_pos] using this

/-- C2 (evaluation at the failing input): candidates P (type 0, position 0,
would accept) and S (type 1, position 1, a strict subclass instance of P's
type, declining). Round one chooses S, which disqualifies P, and clears S's
slot after it declines; in round two the inner loop of lines 139-147 reads
S's cleared slot - it lacks the NULL check the outer loop has at line 130 -
so `PyObject_Type` / `PyObject_IsInstance` run on NULL (the undefined
outcome) and P, the remaining candidate that should now be selected, is
never called. -/
theorem C2_removed_slot_participates :
    PyUFunc_CheckOverride (fun a b => a == b || (a == 1 && b == 0)) 7 "m"
      (.tup [⟨false, false, true, 0, .value 5⟩,
        ⟨false, false, true, 1, .notImplemented⟩]) none 2 =
      (.nullUB, [⟨7, "m", 1, ⟨false, false, true, 1, .notImplemented⟩,
        [⟨false, false, true, 0, .value 5⟩,
          ⟨false, false, true, 1, .notImplemented⟩], []⟩]) := by
  decide

/-- C3 (evaluation at the failing input): both candidates decline, S
(type 6, position 1) being a strict subclass instance of P's (type 5,
position 0) type. Every invoked override returns the decline sentinel, yet
the outcome is not the clean AllDeclined TypeError of lines 157-162: round
two's inner loop reads the cleared slot of S and runs the type comparison on
NULL. -/
theorem C3_all_decline_null_compare :
    PyUFunc_CheckOverride (fun a b => a == b || (a == 6 && b == 5)) 8 "n"
      (.tup [⟨false, false, true, 5, .notImplemented⟩,
        ⟨false, false, true, 6, .notImplemented⟩]) none 2 =
      (.nullUB, [⟨8, "n", 1, ⟨false, false, true, 6, .notImplemented⟩,
        [⟨false, false, true, 5, .notImplemented⟩,
          ⟨false, false, true, 6, .notImplemented⟩], []⟩]) ∧
    Outcome.nullUB ≠ Outcome.allDeclined := by
  decide

/-- C5 counterexample: args a tuple of length 1 holding one candidate and
nin = 2 > len(args), violating the precondition 0 ≤ nin ≤ len(args); the
claim says this is reported as Failure(InvalidUsage), but the code never
validates nin - the slice of line 82 silently clamps - and the dispatch
proceeds to call the override and return its value. -/
theorem C5_nin_not_validated :
    (PyUFunc_CheckOverride (fun _ _ => false) 7 "m"
      (.tup [⟨false, false, true, 3, .value 7⟩]) none 2).1 = .result 7 ∧
    (PyUFunc_CheckOverride (fun _ _ => false) 7 "m"
      (.tup [⟨false, false, true, 3, .value 7⟩]) none 2).1 ≠ .invalidUsage := by
  decide

/-- C5 (amended): the dispatcher reports Failure(InvalidUsage) exactly when
args is not a tuple or len(args) exceeds NPY_MAXARGS - those violations are
never silently tolerated; nin is not validated (an out-of-range nin is
silently clamped by the slicing primitives of lines 82 and 98-109). -/
theorem C5_invalid_usage_iff (inst : Nat → Nat → Bool) (uf : Nat)
    (method : String) (args : Args) (kwds : Option Kwds) (nin : Nat) :
    PyUFunc_CheckOverride inst uf method args kwds nin = (.invalidUsage, []) ↔
      args = .notTuple ∨
        ∃ elems, args = .tup elems ∧ NPY_MAXARGS < elems.length := by
  constructor
  · intro h
    cases args with
    | notTuple => exact Or.inl rfl
    | tup elems =>
      by_cases hlen : NPY_MAXARGS < elems.length
      · exact Or.inr ⟨elems, rfl, hlen⟩
      · exfalso
        by_cases hcand : candidates elems = []
        · rw [resolve_no_candidates inst uf method elems kwds nin (by omega)
            hcand] at h
          simp at h
        · rw [resolve_tup_eq inst uf method elems kwds nin (by omega) hcand] at h
          exact (callLoopF_outcome_ne inst uf method (elems.take nin)
            (buildNormalKwds kwds elems nin) (countSome (initSlots elems))
            (initSlots elems)).1 (congrArg Prod.fst h)
  · intro h
    rcases h with rfl | ⟨elems, rfl, hlen⟩
    · rfl
    · exact resolve_too_long inst uf method elems kwds nin hlen

/-- C4: every invoked override is called with positional arguments
(ufuncIdentity, methodName, the candidate's original index in args, the
first-nin positional slice) and the normalized keyword mapping - every
trace record carries the ufunc, the method name, args[0:nin] and
normal_kwds, and its receiver/index pair is a discovered candidate; and if
the single candidate's call returns a non-decline value, resolve returns
exactly that value, having called the override exactly once at the
candidate's original index. -/
theorem C4_invocation_arguments (inst : Nat → Nat → Bool) (uf : Nat)
    (method : String) (elems : List Operand) (kwds : Option Kwds) (nin : Nat) :
    (∀ r ∈ (PyUFunc_CheckOverride inst uf method (.tup elems) kwds nin).2,
      r.uf = uf ∧ r.methodName = method ∧ r.posArgs = elems.take nin ∧
        r.kwArgs = buildNormalKwds kwds elems nin ∧
        (r.receiver, r.pos) ∈ candidates elems) ∧
    (∀ c i v, candidates elems = [(c, i)] → c.ret = .value v →
      elems.length ≤ NPY_MAXARGS →
      PyUFunc_CheckOverride inst uf method (.tup elems) kwds nin =
        (.result v, [⟨uf, method, i, c, elems.take nin,
          buildNormalKwds kwds elems nin⟩])) := by
  constructor
  · intro r hr
    by_cases hlen : NPY_MAXARGS < elems.length
    · rw [resolve_too_long inst uf method elems kwds nin hlen] at hr
      simp at hr
    · by_cases hcand : candidates elems = []
      · rw [resolve_no_candidates inst uf method elems kwds nin (by omega)
          hcand] at hr
        simp at hr
      · rw [resolve_tup_eq inst uf method elems kwds nin (by omega) hcand] at hr
        obtain ⟨h1, h2, h3, h4, h5⟩ := callLoopF_records inst uf method
          (elems.take nin) (buildNormalKwds kwds elems nin)
          (countSome (initSlots elems)) (initSlots elems) r hr
        exact ⟨h1, h2, h3, h4, (mem_initSlots elems _ _).mp h5⟩
  · intro c i v hc hv hlen
    have hcand : candidates elems ≠ [] := by rw [hc]; simp
    have hslots : initSlots elems = [(some c, i)] := by
      rw [initSlots, hc]
      rfl
    rw [resolve_tup_eq inst uf method elems kwds nin hlen hcand, hslots]
    have hsel : selectLoop inst [(some c, i)] = .chosen c i [(none, i)] := rfl
    rw [show countSome [((some c : Option Operand), i)] = 1 from rfl]
    exact callLoopF_succ_value inst uf method (elems.take nin)
      (buildNormalKwds kwds elems nin) 0 [(some c, i)] c i [(none, i)] v hsel hv

/-- Witness for C4: one candidate at position 0 returning 7; the dispatch
returns 7 after exactly one call with the normalized arguments. -/
theorem C4_invocation_arguments_witness :
    (∀ r ∈ (PyUFunc_CheckOverride (fun a b => a == b) 3 "mul"
        (.tup [⟨false, false, true, 4, .value 7⟩]) none 1).2,
      r.uf = 3 ∧ r.methodName = "mul" ∧
        r.posArgs = [⟨false, false, true, 4, .value 7⟩].take 1 ∧
        r.kwArgs = buildNormalKwds none [⟨false, false, true, 4, .value 7⟩] 1 ∧
        (r.receiver, r.pos) ∈ candidates [⟨false, false, true, 4, .value 7⟩]) ∧
    (∀ c i v, candidates [⟨false, false, true, 4, .value 7⟩] = [(c, i)] →
      c.ret = .value v →
      [(⟨false, false, true, 4, .value 7⟩ : Operand)].length ≤ NPY_MAXARGS →
      PyUFunc_CheckOverride (fun a b => a == b) 3 "mul"
        (.tup [⟨false, false, true, 4, .value 7⟩]) none 1 =
        (.result v, [⟨3, "mul", i, c,
          [⟨false, false, true, 4, .value 7⟩].take 1,
          buildNormalKwds none [⟨false, false, true, 4, .value 7⟩] 1⟩])) :=
  C4_invocation_arguments (fun a b => a == b) 3 "mul"
    [⟨false, false, true, 4, .value 7⟩] none 1

/-- C6: for a dispatch with at least one candidate and nargs > nin, at least
one override is invoked, and the keyword mapping each invoked override
receives holds under "out" the single extra argument itself when
nargs - nin = 1, and the slice args[nin:nargs] when there are more. -/
theorem C6_out_entry (inst : Nat → Nat → Bool) (uf : Nat) (method : String)
    (elems : List Operand) (kwds : Option Kwds) (nin : Nat)
    (hlen : elems.length ≤ NPY_MAXARGS) (hnin : nin < elems.length)
    (hcand : candidates elems ≠ []) :
    (PyUFunc_CheckOverride inst uf method (.tup elems) kwds nin).2 ≠ [] ∧
    ∀ r ∈ (PyUFunc_CheckOverride inst uf method (.tup elems) kwds nin).2,
      (elems.length = nin + 1 →
        dictGet r.kwArgs "out" =
          some (.obj ((elems.get? (elems.length - 1)).getD default))) ∧
      (nin + 1 < elems.length →
        dictGet r.kwArgs "out" = some (.slice (elems.drop nin))) := by
  constructor
  · rw [resolve_tup_eq inst uf method elems kwds nin hlen hcand]
    have hne : initSlots elems ≠ [] := by
      simpa [initSlots] using hcand
    have hpos := countSome_pos (initSlots elems) hne (initSlots_all_some elems)
    obtain ⟨o, p, rest, hsel⟩ :=
      selectLoop_all_some inst (initSlots elems) hne (initSlots_all_some elems)
    obtain ⟨n, hn⟩ : ∃ n, countSome (initSlots elems) = n + 1 :=
      ⟨countSome (initSlots elems) - 1, by omega⟩
    rw [hn]
    cases ho : o.ret with
    | raises =>
      rw [callLoopF_succ_raises inst uf method (elems.take nin)
        (buildNormalKwds kwds elems nin) n (initSlots elems) o p rest hsel ho]
      simp
    | value v =>
      rw [callLoopF_succ_value inst uf method (elems.take nin)
        (buildNormalKwds kwds elems nin) n (initSlots elems) o p rest v hsel ho]
      simp
    | notImplemented =>
      rw [callLoopF_succ_decline inst uf method (elems.take nin)
        (buildNormalKwds kwds elems nin) n (initSlots elems) o p rest hsel ho]
      simp
  · intro r hr
    have hkw : r.kwArgs = buildNormalKwds kwds elems nin := by
      rw [resolve_tup_eq inst uf method elems kwds nin hlen hcand] at hr
      exact (callLoopF_records inst uf method (elems.take nin)
        (buildNormalKwds kwds elems nin) (countSome (initSlots elems))
        (initSlots elems) r hr).2.2.2.1
    constructor
    · intro h1
      rw [hkw]
      simp only [buildNormalKwds]
      rw [if_pos (by omega), if_pos (by omega)]
      exact dictGet_dictSet_self _ _ _
    · intro h2
      rw [hkw]
      simp only [buildNormalKwds]
      rw [if_pos (by omega), if_neg (by omega)]
      have hdt : (elems.drop nin).take (elems.length - nin) = elems.drop nin := by
        have hld : (elems.drop nin).length = elems.length - nin :=
          List.length_drop ..
        rw [← hld]
        exact List.take_length _
      rw [hdt]
      exact dictGet_dictSet_self _ _ _

/-- Witness for C6: nin = 1, one candidate and one extra positional
argument; the "out" entry is that argument itself, not wrapped. -/
theorem C6_out_entry_witness :
    (PyUFunc_CheckOverride (fun a b => a == b) 7 "m"
      (.tup [⟨false, false, true, 0, .value 2⟩,
        ⟨true, false, false, 1, .raises⟩]) none 1).2 ≠ [] ∧
    ∀ r ∈ (PyUFunc_CheckOverride (fun a b => a == b) 7 "m"
      (.tup [⟨false, false, true, 0, .value 2⟩,
        ⟨true, false, false, 1, .raises⟩]) none 1).2,
      (2 = 1 + 1 →
        dictGet r.kwArgs "out" =
          some (.obj ⟨true, false, false, 1, .raises⟩)) ∧
      (1 + 1 < 2 →
        dictGet r.kwArgs "out" =
          some (.slice [⟨true, false, false, 1, .raises⟩])) :=
  C6_out_entry (fun a b => a == b) 7 "m"
    [⟨false, false, true, 0, .value 2⟩, ⟨true, false, false, 1, .raises⟩]
    none 1 (by decide) (by decide) (by decide)

/-- C7: within one dispatch no position of args is ever invoked twice
(the trace of call positions has no duplicates, whatever the arguments and
oracle); and in the concrete decline chain - A (type 0) declines, B (type 1)
accepts, no subclass relation - A is called first, then B, and B's value 5
is the result, A never being called again. -/
theorem C7_no_double_invocation :
    (∀ (inst : Nat → Nat → Bool) (uf : Nat) (method : String) (args : Args)
        (kwds : Option Kwds) (nin : Nat),
      ((PyUFunc_CheckOverride inst uf method args kwds nin).2.map
        (·.pos)).Nodup) ∧
    PyUFunc_CheckOverride (fun a b => a == b) 7 "m"
      (.tup [⟨false, false, true, 0, .notImplemented⟩,
        ⟨false, false, true, 1, .value 5⟩]) none 2 =
      (.result 5,
        [⟨7, "m", 0, ⟨false, false, true, 0, .notImplemented⟩,
          [⟨false, false, true, 0, .notImplemented⟩,
            ⟨false, false, true, 1, .value 5⟩], []⟩,
          ⟨7, "m", 1, ⟨false, false, true, 1, .value 5⟩,
            [⟨false, false, true, 0, .notImplemented⟩,
              ⟨false, false, true, 1, .value 5⟩], []⟩]) := by
  constructor
  · intro inst uf method args kwds nin
    cases args with
    | notTuple => simp [PyUFunc_CheckOverride]
    | tup elems =>
      by_cases hlen : NPY_MAXARGS < elems.length
      · rw [resolve_too_long inst uf method elems kwds nin hlen]
        simp
      · by_cases hcand : candidates elems = []
        · rw [resolve_no_candidates inst uf method elems kwds nin (by omega)
            hcand]
          simp
        · rw [resolve_tup_eq inst uf method elems kwds nin (by omega) hcand]
          refine callLoopF_pos_nodup inst uf method (elems.take nin)
            (buildNormalKwds kwds elems nin) (countSome (initSlots elems))
            (initSlots elems) ?_
          rw [initSlots_pos_map]
          exact candidates_pos_nodup elems
  · decide

/-- C8: if an invoked override raises, the dispatch returns the propagated
failure immediately - the raising call is the last entry of the trace and
the outcome is the propagated error, whatever candidates remain. -/
theorem C8_exception_short_circuit (inst : Nat → Nat → Bool) (uf : Nat)
    (method : String) (args : Args) (kwds : Option Kwds) (nin : Nat)
    (pre : List CallRecord) (r : CallRecord) (post : List CallRecord)
    (hdec : (PyUFunc_CheckOverride inst uf method args kwds nin).2 =
      pre ++ r :: post)
    (hret : r.receiver.ret = .raises) :
    post = [] ∧
      (PyUFunc_CheckOverride inst uf method args kwds nin).1 = .propagated := by
  cases args with
  | notTuple => simp [PyUFunc_CheckOverride] at hdec
  | tup elems =>
    by_cases hlen : NPY_MAXARGS < elems.length
    · rw [resolve_too_long inst uf method elems kwds nin hlen] at hdec
      simp at hdec
    · by_cases hcand : candidates elems = []
      · rw [resolve_no_candidates inst uf method elems kwds nin (by omega)
          hcand] at hdec
        simp at hdec
      · rw [resolve_tup_eq inst uf method elems kwds nin (by omega) hcand]
          at hdec ⊢
        exact callLoopF_raises_last inst uf method (elems.take nin)
          (buildNormalKwds kwds elems nin) (countSome (initSlots elems))
          (initSlots elems) pre r post hdec hret

/-- Witness for C8: the first candidate raises while the second would have
accepted; the trace stops at the raising call and the outcome is the
propagated failure. -/
theorem C8_exception_short_circuit_witness :
    ([] : List CallRecord) = [] ∧
      (PyUFunc_CheckOverride (fun a b => a == b) 9 "w"
        (.tup [⟨false, false, true, 0, .raises⟩,
          ⟨false, false, true, 1, .value 3⟩]) none 2).1 = .propagated :=
  C8_exception_short_circuit (fun a b => a == b) 9 "w"
    (.tup [⟨false, false, true, 0, .raises⟩,
      ⟨false, false, true, 1, .value 3⟩]) none 2 []
    ⟨9, "w", 0, ⟨false, false, true, 0, .raises⟩,
      [⟨false, false, true, 0, .raises⟩, ⟨false, false, true, 1, .value 3⟩], []⟩
    [] (by decide) (by decide)

/-- C9 counterexample: the original exact-dict keyword mapping is
{"out": ext 4}, there is one candidate and one extra positional argument x;
the invoked override receives {"out": obj x} - the original entry
("out", ext 4) is not contained in the passed mapping, refuting the claim
that every original entry is preserved. -/
theorem C9_out_entry_overwritten :
    (PyUFunc_CheckOverride (fun a b => a == b) 7 "m"
      (.tup [⟨false, false, true, 2, .value 9⟩,
        ⟨true, false, false, 0, .raises⟩])
      (some ⟨true, [("out", .ext 4)]⟩) 1).2.map (·.kwArgs) =
      [[("out", .obj ⟨true, false, false, 0, .raises⟩)]] ∧
    dictGet [("out", PyVal.obj ⟨true, false, false, 0, .raises⟩)] "out" ≠
      some (.ext 4) := by
  decide

/-- C9 (amended): for a dispatch whose original keyword mapping is an exact
dict, the mapping passed to any invoked override preserves every original
entry except possibly "out": entries under other keys are always preserved,
and the "out" entry too when there are no extra positional arguments
(len(args) ≤ nin); when nargs > nin the synthesized "out" entry replaces
any original one (and a non-exact-dict mapping is not copied at all,
lines 88-93). -/
theorem C9_kwds_preserved (inst : Nat → Nat → Bool) (uf : Nat)
    (method : String) (elems : List Operand) (m : Dict) (nin : Nat)
    (k : String) (v : PyVal) (hkv : dictGet m k = some v)
    (hk : k ≠ "out" ∨ elems.length ≤ nin) (r : CallRecord)
    (hr : r ∈ (PyUFunc_CheckOverride inst uf method (.tup elems)
      (some ⟨true, m⟩) nin).2) :
    dictGet r.kwArgs k = some v := by
  by_cases hlen : NPY_MAXARGS < elems.length
  · rw [resolve_too_long inst uf method elems (some ⟨true, m⟩) nin hlen] at hr
    simp at hr
  · by_cases hcand : candidates elems = []
    · rw [resolve_no_candidates inst uf method elems (some ⟨true, m⟩) nin
        (by omega) hcand] at hr
      simp at hr
    · rw [resolve_tup_eq inst uf method elems (some ⟨true, m⟩) nin (by omega)
        hcand] at hr
      have hkw : r.kwArgs = buildNormalKwds (some ⟨true, m⟩) elems nin :=
        (callLoopF_records inst uf method (elems.take nin)
          (buildNormalKwds (some ⟨true, m⟩) elems nin)
          (countSome (initSlots elems)) (initSlots elems) r hr).2.2.2.1
      have hbase : baseKwds (some ⟨true, m⟩) = m := rfl
      rw [hkw]
      simp only [buildNormalKwds, hbase]
      rcases hk with hk | hk
      · by_cases hgt : elems.length > nin
        · rw [if_pos hgt]
          by_cases h1 : elems.length - nin = 1
          · rw [if_pos h1, dictGet_dictSet_ne m k "out" _ hk]
            exact hkv
          · rw [if_neg h1, dictGet_dictSet_ne m k "out" _ hk]
            exact hkv
        · rw [if_neg hgt]
          exact hkv
      · rw [if_neg (by omega)]
        exact hkv

/-- Witness for C9 (amended): original mapping {"axis": ext 2} with one
candidate and one extra positional argument; the override's mapping still
holds ("axis", ext 2). -/
theorem C9_kwds_preserved_witness :
    dictGet [("axis", PyVal.ext 2),
      ("out", PyVal.obj ⟨true, false, false, 1, .raises⟩)] "axis" =
      some (.ext 2) :=
  C9_kwds_preserved (fun a b => a == b) 7 "m"
    [⟨false, false, true, 0, .value 2⟩, ⟨true, false, false, 1, .raises⟩]
    [("axis", .ext 2)] 1 "axis" (.ext 2) (by decide) (Or.inl (by decide))
    ⟨7, "m", 0, ⟨false, false, true, 0, .value 2⟩,
      [⟨false, false, true, 0, .value 2⟩],
      [("axis", .ext 2), ("out", .obj ⟨true, false, false, 1, .raises⟩)]⟩
    (by decide)

/-!
Store-passing model of the normalization phase (lines 82-109), for the frame
property: Python tuples and dicts live in stores addressed by index.
`PyTuple_GetSlice`, `PyDict_Copy` and `PyDict_New` allocate fresh objects at
the end of the store; `PyDict_SetItemString` mutates the dict at an address
in place. The rest of the dispatcher performs no tuple or dict mutation:
the selection-and-call loop only reads `normal_args` / `normal_kwds` and
DECREFs them on exit (lines 199-207).
-/

structure Stores where
  tuples : List (List Operand)
  dicts : List (Bool × Dict)
deriving DecidableEq

/-- `PyTuple_GetSlice(t, lo, hi)`: read the tuple at address `a`, allocate a
fresh tuple holding the clamped slice `[lo, hi)`, return its address. -/
def tupleGetSlice (s : Stores) (a lo hi : Nat) : Stores × Nat :=
  (⟨s.tuples ++ [(((s.tuples.get? a).getD []).drop lo).take (hi - lo)],
    s.dicts⟩, s.tuples.length)

/-- `PyDict_New`: allocate a fresh empty exact dict. -/
def dictNew (s : Stores) : Stores × Nat :=
  (⟨s.tuples, s.dicts ++ [(true, [])]⟩, s.dicts.length)

/-- `PyDict_Copy`: allocate a fresh exact dict holding the entries of the
dict at address `a`. -/
def dictCopy (s : Stores) (a : Nat) : Stores × Nat :=
  (⟨s.tuples, s.dicts ++ [(true, ((s.dicts.get? a).getD (true, [])).2)]⟩,
    s.dicts.length)

/-- `PyDict_SetItemString`: in-place update of the dict at address `a`. -/
def dictSetItemStr (s : Stores) (a : Nat) (k : String) (v : PyVal) : Stores :=
  ⟨s.tuples,
    s.dicts.set a (((s.dicts.get? a).getD (true, [])).1,
      dictSet ((s.dicts.get? a).getD (true, [])).2 k v)⟩

/-- Lines 82-109 in store-passing form: `normal_args` is a fresh slice
`args[0:nin]`; `normal_kwds` is a fresh copy of `kwds` (when that address
holds an exact dict) or a fresh empty dict; the synthesized `"out"` entry is
then inserted into that fresh dict. Returns the new store and the addresses
of `normal_args` and `normal_kwds`. -/
def normalizeCall (s : Stores) (argsAddr : Nat) (kwdsAddr : Option Nat)
    (nin : Nat) : Stores × Nat × Nat :=
  let args := (s.tuples.get? argsAddr).getD []
  let nargs := args.length
  let s1 := tupleGetSlice s argsAddr 0 nin
  let s2 :=
    match kwdsAddr with
    | some a =>
      if (((s1.1.dicts.get? a).getD (false, [])).1 : Bool) then dictCopy s1.1 a
      else dictNew s1.1
    | none => dictNew s1.1
  let s3 :=
    if nargs > nin then
      if nargs - nin = 1 then
        dictSetItemStr s2.1 s2.2 "out"
          (.obj ((args.get? (nargs - 1)).getD default))
      else
        let sl := tupleGetSlice s2.1 argsAddr nin nargs
        dictSetItemStr sl.1 s2.2 "out"
          (.slice ((sl.1.tuples.get? sl.2).getD []))
    else s2.1
  (s3, s1.2, s2.2)

/-- The `args` parameter of the store model: the address of a tuple, or a
non-tuple object. -/
inductive ArgsRef where
  | tupAddr (a : Nat)
  | notTuple

/-- `PyUFunc_CheckOverride` in store-passing form: the same control flow,
with the normalization phase acting on the stores; the selection-and-call
loop reads the freshly built `normal_args` / `normal_kwds` and performs no
store operation. -/
def PyUFunc_CheckOverrideS (inst : Nat → Nat → Bool) (uf : Nat)
    (method : String) (s : Stores) (args : ArgsRef) (kwdsAddr : Option Nat)
    (nin : Nat) : Stores × Outcome × List CallRecord :=
  match args with
  | .notTuple => (s, .invalidUsage, [])
  | .tupAddr a =>
    let elems := (s.tuples.get? a).getD []
    if elems.length > NPY_MAXARGS then (s, .invalidUsage, [])
    else if (candidates elems).length = 0 then (s, .noOverride, [])
    else
      let sn := normalizeCall s a kwdsAddr nin
      let na := (sn.1.tuples.get? sn.2.1).getD []
      let nk := ((sn.1.dicts.get? sn.2.2).getD (true, [])).2
      (sn.1, callLoop inst uf method na nk (initSlots elems))

/-- The normalization phase never touches a pre-existing store address: it
only appends fresh objects and mutates the freshly allocated normal_kwds
dict; the returned addresses are the fresh ones. -/
lemma normalizeCall_frame (s : Stores) (argsAddr : Nat) (kwdsAddr : Option Nat)
    (nin : Nat) :
    (∀ t, t < s.tuples.length →
      (normalizeCall s argsAddr kwdsAddr nin).1.tuples.get? t =
        s.tuples.get? t) ∧
    (∀ d, d < s.dicts.length →
      (normalizeCall s argsAddr kwdsAddr nin).1.dicts.get? d =
        s.dicts.get? d) ∧
    (normalizeCall s argsAddr kwdsAddr nin).2.1 = s.tuples.length ∧
    (normalizeCall s argsAddr kwdsAddr nin).2.2 = s.dicts.length := by
  have hset : ∀ (dl : List (Bool × Dict)) (y z : Bool × Dict) (d : Nat),
      d < dl.length → ((dl ++ [y]).set dl.length z).get? d = dl.get? d := by
    intro dl y z d hd
    rw [List.get?_set_ne _ _ (by omega)]
    exact List.get?_append hd
  have happ2 : ∀ (tl : List (List Operand)) (x w : List Operand) (t : Nat),
      t < tl.length → ((tl ++ [x] ++ [w]).get? t) = tl.get? t := by
    intro tl x w t ht
    rw [List.get?_append (by simp; omega)]
    exact List.get?_append ht
  rcases kwdsAddr with - | a
  · simp only [normalizeCall, tupleGetSlice, dictNew, dictCopy, dictSetItemStr]
    by_cases h1 : ((s.tuples.get? argsAddr).getD []).length > nin
    · rw [if_pos h1]
      by_cases h2 : ((s.tuples.get? argsAddr).getD []).length - nin = 1
      · rw [if_pos h2]
        exact ⟨fun t ht => List.get?_append ht, fun d hd => hset s.dicts _ _ d hd,
          by trivial, by trivial⟩
      · rw [if_neg h2]
        exact ⟨fun t ht => happ2 s.tuples _ _ t ht, fun d hd => hset s.dicts _ _ d hd,
          by trivial, by trivial⟩
    · rw [if_neg h1]
      exact ⟨fun t ht => List.get?_append ht, fun d hd => List.get?_append hd,
        by trivial, by trivial⟩
  · simp only [normalizeCall, tupleGetSlice, dictNew, dictCopy, dictSetItemStr]
    by_cases hex : (((s.dicts.get? a).getD (false, [])).1 : Bool) = true
    · rw [if_pos hex]
      by_cases h1 : ((s.tuples.get? argsAddr).getD []).length > nin
      · rw [if_pos h1]
        by_cases h2 : ((s.tuples.get? argsAddr).getD []).length - nin = 1
        · rw [if_pos h2]
          exact ⟨fun t ht => List.get?_append ht,
            fun d hd => hset s.dicts _ _ d hd, by trivial, by trivial⟩
        · rw [if_neg h2]
          exact ⟨fun t ht => happ2 s.tuples _ _ t ht,
            fun d hd => hset s.dicts _ _ d hd, by trivial, by trivial⟩
      · rw [if_neg h1]
        exact ⟨fun t ht => List.get?_append ht, fun d hd => List.get?_append hd,
          by trivial, by trivial⟩
    · rw [if_neg hex]
      by_cases h1 : ((s.tuples.get? argsAddr).getD []).length > nin
      · rw [if_pos h1]
        by_cases h2 : ((s.tuples.get? argsAddr).getD []).length - nin = 1
        · rw [if_pos h2]
          exact ⟨fun t ht => List.get?_append ht,
            fun d hd => hset s.dicts _ _ d hd, by trivial, by trivial⟩
        · rw [if_neg h2]
          exact ⟨fun t ht => happ2 s.tuples _ _ t ht,
            fun d hd => hset s.dicts _ _ d hd, by trivial, by trivial⟩
      · rw [if_neg h1]
        exact ⟨fun t ht => List.get?_append ht, fun d hd => List.get?_append hd,
          by trivial, by trivial⟩

/-- C10: on every outcome, the caller's args tuple and kwds mapping are
unchanged when the dispatcher returns: every pre-existing store address
holds the same object afterwards. Normalization builds a fresh positional
slice and a fresh keyword dict at fresh addresses, and the synthesized
"out" entry is inserted only into that fresh dict (normalizeCall_frame). -/
theorem C10_caller_objects_unchanged (inst : Nat → Nat → Bool) (uf : Nat)
    (method : String) (s : Stores) (args : ArgsRef) (kwdsAddr : Option Nat)
    (nin : Nat) (t d : Nat) (ht : t < s.tuples.length)
    (hd : d < s.dicts.length) :
    ((PyUFunc_CheckOverrideS inst uf method s args kwdsAddr nin).1.tuples.get? t
      = s.tuples.get? t) ∧
    ((PyUFunc_CheckOverrideS inst uf method s args kwdsAddr nin).1.dicts.get? d
      = s.dicts.get? d) := by
  cases args with
  | notTuple => exact ⟨rfl, rfl⟩
  | tupAddr a =>
    simp only [PyUFunc_CheckOverrideS]
    by_cases h1 : ((s.tuples.get? a).getD []).length > NPY_MAXARGS
    · rw [if_pos h1]
      exact ⟨rfl, rfl⟩
    · rw [if_neg h1]
      by_cases h2 : (candidates ((s.tuples.get? a).getD [])).length = 0
      · rw [if_pos h2]
        exact ⟨rfl, rfl⟩
      · rw [if_neg h2]
        exact ⟨(normalizeCall_frame s a kwdsAddr nin).1 t ht,
          (normalizeCall_frame s a kwdsAddr nin).2.1 d hd⟩

/-- Witness for C10: a store holding the caller's args tuple (one candidate
and one output argument) at tuple address 0 and the caller's kwds dict at
dict address 0; after the dispatch both addresses hold the same objects. -/
theorem C10_caller_objects_unchanged_witness :
    ((PyUFunc_CheckOverrideS (fun a b => a == b) 5 "m"
      ⟨[[⟨false, false, true, 0, .value 1⟩, ⟨true, false, false, 1, .raises⟩]],
        [(true, [("k", .ext 1)])]⟩
      (.tupAddr 0) (some 0) 1).1.tuples.get? 0 =
      (⟨[[⟨false, false, true, 0, .value 1⟩, ⟨true, false, false, 1, .raises⟩]],
        [(true, [("k", .ext 1)])]⟩ : Stores).tuples.get? 0) ∧
    ((PyUFunc_CheckOverrideS (fun a b => a == b) 5 "m"
      ⟨[[⟨false, false, true, 0, .value 1⟩, ⟨true, false, false, 1, .raises⟩]],
        [(true, [("k", .ext 1)])]⟩
      (.tupAddr 0) (some 0) 1).1.dicts.get? 0 =
      (⟨[[⟨false, false, true, 0, .value 1⟩, ⟨true, false, false, 1, .raises⟩]],
        [(true, [("k", .ext 1)])]⟩ : Stores).dicts.get? 0) :=
  C10_caller_objects_unchanged (fun a b => a == b) 5 "m"
    ⟨[[⟨false, false, true, 0, .value 1⟩, ⟨true, false, false, 1, .raises⟩]],
      [(true, [("k", .ext 1)])]⟩
    (.tupAddr 0) (some 0) 1 0 0 (by decide) (by decide)

end UfuncOverride
